import Mathlib

/-!
Shallow embedding of the build-monitoring subsystem of az-bake
(`bake/azext_bake/_ci.py`) and proofs of the specification claims.

Python strings are modelled as Lean `String` (a list of Unicode code
points, matching CPython's `str`); machine file/network effects are
modelled as explicit data: the poll environment is a function from
(sweep index, job name) to an optional poll datum (`none` models the
broad `except` branch around `poll_build`), and console output is an
explicit list of written chunks.  The logger (`logger.info/warning`)
is a diagnostic channel and is not modelled; the `polls` counter in
the monitor state counts calls to `poll_build` instead, which is what
the claims about "polling" observe.
-/

/-- Python whitespace characters as recognised by `str.strip()`
(`str.isspace`): ASCII whitespace, the C1 separators, NEL, NBSP and
the Unicode space/line/paragraph separators. -/
def py_space_chars : List Char :=
  [' ', '\t', '\n', '\r', '\u000b', '\u000c',
   '\u001c', '\u001d', '\u001e', '\u001f', '\u0085', ' ',
   ' ', ' ', ' ', ' ', ' ', ' ', ' ',
   ' ', ' ', ' ', ' ', ' ',
   ' ', ' ', ' ', ' ', '　']

def is_py_space (c : Char) : Bool := py_space_chars.contains c

/-- Line boundary characters of Python `str.splitlines()` (besides the
two-character boundary `"\r\n"`). -/
def break_chars : List Char :=
  ['\n', '\r', '\u000b', '\u000c', '\u001c', '\u001d', '\u001e',
   '\u0085', ' ', ' ']

def is_line_break (c : Char) : Bool := break_chars.contains c

/-- Embedding of Python `str.strip()` (no argument form): remove leading
and trailing whitespace. -/
def py_strip (s : String) : String :=
  String.mk (((s.data.dropWhile is_py_space).reverse.dropWhile is_py_space).reverse)

/-- Worker for `py_splitlines`.  `acc` holds the current line (reversed);
`after_cr` records that the previous character was a carriage return, so
that an immediately following line feed belongs to the same `"\r\n"`
boundary and is skipped rather than starting a new line. -/
def splitlines_go : List Char → List Char → Bool → List String
  | [], acc, _ => if acc.isEmpty then [] else [String.mk acc.reverse]
  | c :: rest, acc, after_cr =>
      if after_cr && c = '\n' then splitlines_go rest acc false
      else if is_line_break c then
        String.mk acc.reverse :: splitlines_go rest [] (c = '\r')
      else splitlines_go rest (c :: acc) false

/-- Embedding of Python `str.splitlines()` (keepends=False). -/
def py_splitlines (s : String) : List String := splitlines_go s.data [] false

/-- Embedding of the Python slice `xs[-n:]`: for `n = 0` this is `xs[0:]`,
i.e. the whole list (CPython semantics of a negative-zero start). -/
def last_slice (xs : List String) (n : Nat) : List String :=
  if n = 0 then xs else xs.drop (xs.length - n)

/-- Python truthiness fallback `s or d` for strings. -/
def py_str_or (s d : String) : String := if s = "" then d else s

/-- Python truthiness fallback `a or d` where `a` is `None` or a string. -/
def py_opt_or (a : Option String) (d : String) : String :=
  match a with
  | none => d
  | some s => py_str_or s d

/-- Python conditional `x if x else None` for an optional string. -/
def py_truthy (a : Option String) : Option String :=
  match a with
  | none => none
  | some s => if s = "" then none else some s

/-- Embedding of `message.replace('\n', '%0A')`. -/
def escape_newlines (s : String) : String :=
  String.mk (s.data.foldr (fun c acc => if c = '\n' then '%' :: '0' :: 'A' :: acc else c :: acc) [])

/-- Whether a string contains a literal newline character. -/
def has_newline (s : String) : Bool := decide ('\n' ∈ s.data)

/-- The last line of a string: the maximal suffix free of line-break
characters. -/
def last_line (s : String) : String :=
  String.mk ((s.data.reverse.takeWhile (fun c => !(is_line_break c))).reverse)

/-- Number of physical lines of a chunk of text that is free of break
characters other than `'\n'`: zero for the empty string, otherwise one
more than the number of newline characters. -/
def line_count (s : String) : Nat :=
  if s.data = [] then 0 else s.data.count '\n' + 1

/-! Constants of `_ci.py`. -/

def POLL_INTERVAL_SECONDS : Nat := 15

def TERMINATED : String := "Terminated"

def LOG_TAIL_LINES : Nat := 50

/-- Dataclass `BuildResult`: result of a single container instance build. -/
structure BuildResult where
  image_name : String
  state : String := "Unknown"
  exit_code : Option Int := none
  start_time : Option String := none
  finish_time : Option String := none
  detail_status : String := ""
  logs_tail : String := ""
  portal_url : String := ""
deriving DecidableEq

/-- Property `succeeded`: Python `self.exit_code == 0` (false when
`exit_code` is `None`, since `None == 0` is `False`). -/
def BuildResult.succeeded (r : BuildResult) : Bool :=
  match r.exit_code with
  | some c => c == 0
  | none => false

/-- Property `failed`: Python `self.exit_code is not None and self.exit_code != 0`. -/
def BuildResult.failed (r : BuildResult) : Bool :=
  match r.exit_code with
  | some c => c != 0
  | none => false

/-! The container-group descriptor returned by the job status client
(`container_group_client.get`), restricted to the fields `_ci.py` reads. -/

structure ContainerCurrentState where
  state : Option String
  exit_code : Option Int
  detail_status : Option String
  start_time : Option String
  finish_time : Option String
deriving DecidableEq

structure InstanceView where
  current_state : Option ContainerCurrentState
deriving DecidableEq

structure Container where
  name : String
  instance_view : Option InstanceView
deriving DecidableEq

structure ContainerGroup where
  containers : List Container
  provisioning_state : Option String
deriving DecidableEq

/-- Embedding of `_get_container_state`: extract the current state from the first
container in a container group.  A `None` containers attribute and an
empty list coincide in the model (the source normalises with `or []`). -/
def get_container_state (cg : ContainerGroup) : Option String × Option Int × Option String :=
  match cg.containers with
  | [] => (none, none, none)
  | c :: _ =>
    match c.instance_view with
    | none => (cg.provisioning_state, none, none)
    | some iv =>
      match iv.current_state with
      | none => (cg.provisioning_state, none, none)
      | some cur => (cur.state, cur.exit_code, cur.detail_status)

/-- The container name `poll_build` fetches logs for:
`cg.containers[0].name if cg.containers else image_name`. -/
def container_name_of (image_name : String) (cg : ContainerGroup) : String :=
  match cg.containers with
  | [] => image_name
  | c :: _ => c.name

/-- Embedding of Python `'\n'.join(lines)`. -/
def join_nl : List String → String
  | [] => ""
  | [x] => x
  | x :: xs => x ++ "\n" ++ join_nl xs

/-- Embedding of `_tail_lines`: last `n` lines of `content.strip().splitlines()`
joined with newlines (Python `lines[-n:]`). -/
def tail_lines (content : String) (n : Nat) : String :=
  join_nl (last_slice (py_splitlines (py_strip content)) n)

/-- Embedding of `poll_build`, as a pure function of the fetched container group and a
log-fetch oracle (`logs_of` maps a container name to the full log text
returned by `_fetch_logs`, which itself never raises).  Returns the
constructed `BuildResult` together with the full log text. -/
def poll_build (image_name : String) (cg : ContainerGroup) (logs_of : String → String) :
    BuildResult × String :=
  let sed := get_container_state cg
  let logs := logs_of (container_name_of image_name cg)
  let result : BuildResult :=
    { image_name := image_name
      state := py_opt_or sed.1 (py_opt_or cg.provisioning_state "Unknown")
      exit_code := sed.2.1
      start_time := none
      finish_time := none
      detail_status := py_opt_or sed.2.2 ""
      logs_tail := tail_lines logs LOG_TAIL_LINES
      portal_url := "" }
  let result :=
    match cg.containers with
    | [] => result
    | c :: _ =>
      match c.instance_view with
      | none => result
      | some iv =>
        match iv.current_state with
        | none => result
        | some cs =>
          { result with start_time := py_truthy cs.start_time
                        finish_time := py_truthy cs.finish_time }
  (result, logs)

/-- Embedding of `_stream_log_delta`: print only the new portion of logs since last
check; returns the new total length for tracking, together with the list
of chunks written to stdout (group markers are `print`ed lines, the
delta is written verbatim via `sys.stdout.write`). -/
def stream_log_delta (image_name full_content : String) (previous_length : Nat)
    (use_groups : Bool) : Nat × List String :=
  if full_content.length ≤ previous_length then (previous_length, [])
  else
    let delta := full_content.drop previous_length
    let chunks := (if use_groups then ["::group::" ++ image_name ++ " (log update)\n"] else [])
      ++ [delta] ++ (if use_groups then ["::endgroup::\n"] else [])
    (full_content.length, chunks)

/-- Embedding of `emit_github_annotation`, as the single stdout line it prints:
`'::' + level + title_part + '::' + message.replace('\n', '%0A')` where
`title_part` is `' title=' + title` when the title is truthy. -/
def github_ann_line (level message : String) (title : Option String) : String :=
  let title_part :=
    match title with
    | none => ""
    | some t => if t = "" then "" else " title=" ++ t
  "::" ++ level ++ title_part ++ "::" ++ escape_newlines message

/-- Rendering of an optional integer inside a Python f-string
(`str(None)` is `"None"`). -/
def exit_code_str : Option Int → String
  | none => "None"
  | some i => toString i

/-- The error-annotation message built by `report_results` for a failed
result. -/
def fail_msg (r : BuildResult) : String :=
  "Build failed with exit code " ++ exit_code_str r.exit_code ++ ".\n\nLast "
    ++ toString LOG_TAIL_LINES ++ " lines:\n" ++ py_str_or r.logs_tail "(no logs available)"

/-- The error annotation line emitted for a failed result. -/
def error_ann_line (r : BuildResult) : String :=
  github_ann_line "error" (fail_msg r) (some (r.image_name ++ " build failed"))

/-- The notice annotation line emitted for a succeeded result. -/
def notice_ann_line (r : BuildResult) : String :=
  github_ann_line "notice" "Build completed successfully." (some (r.image_name ++ " build succeeded"))

/-- Status cell of the markdown summary table. -/
def status_label (r : BuildResult) : String :=
  if r.succeeded then ":white_check_mark: Succeeded"
  else if r.failed then ":x: Failed"
  else ":grey_question: Unknown"

/-- One row of the markdown summary table. -/
def summary_row (r : BuildResult) : String :=
  "| " ++ r.image_name ++ " | " ++ status_label r ++ " | "
    ++ (match r.exit_code with | some c => toString c | none => "-") ++ " | "
    ++ (if r.portal_url = "" then "-" else "[Portal](" ++ r.portal_url ++ ")") ++ " |"

/-- The collapsible failure-log block appended per failed result. -/
def failure_log_block (r : BuildResult) : List String :=
  ["<details><summary>" ++ r.image_name ++ "</summary>\n",
   "```\n" ++ r.logs_tail ++ "\n```\n",
   "</details>\n"]

/-- The markdown passed to `write_github_summary`. -/
def summary_md (results failed : List BuildResult) : String :=
  let ls := ["## Build Results\n",
             "| Image | Status | Exit Code | Details |",
             "|-------|--------|-----------|---------|"]
    ++ results.map summary_row ++ [""]
  let ls := if failed.isEmpty then ls
    else ls ++ ["### Failure Logs\n"] ++ (failed.map failure_log_block).flatten
  String.intercalate "\n" ls

/-- Observable effects of `report_results`: the annotation lines printed
to stdout, the markdown handed to the step-summary sink, and the
key=value pairs handed to the `$GITHUB_OUTPUT` sink (the sinks
themselves are no-ops when their environment variable is absent). -/
structure ReportOut where
  ann_lines : List String
  summary : Option String
  outs : List (String × String)
deriving DecidableEq

/-- Embedding of `report_results`: returns the list of failed results, plus its CI
effects.  `in_github` is the value of `is_github_actions()`; the console
summary goes through the logger and is not modelled. -/
def report_results (in_github : Bool) (results : List BuildResult) :
    List BuildResult × ReportOut :=
  let failed := results.filter (fun r => r.failed)
  let succeeded := results.filter (fun r => r.succeeded)
  if in_github then
    let anns := failed.map error_ann_line ++ succeeded.map notice_ann_line
    let build_result :=
      if !failed.isEmpty then "failure"
      else if !succeeded.isEmpty then "success" else "unknown"
    let outs := [("build_result", build_result)]
      ++ (if !failed.isEmpty then
            [("failed_images", String.intercalate "," (failed.map (fun r => r.image_name)))]
          else [])
      ++ (if !succeeded.isEmpty then
            [("succeeded_images", String.intercalate "," (succeeded.map (fun r => r.image_name)))]
          else [])
    (failed, { ann_lines := anns, summary := some (summary_md results failed), outs := outs })
  else
    (failed, { ann_lines := [], summary := none, outs := [] })

/-! The build monitor `wait_for_builds`, as a state machine.  One sweep
of the Python `while` loop folds `process_job` over the caller-supplied
job list; the poll environment `env` maps a sweep index and job name to
the data `poll_build` would fetch (`none` models an exception raised by
the status fetch, caught by the `except` around `poll_build`). -/

/-- The data one call of `poll_build` consumes: the fetched container
group and the log-fetch oracle. -/
abbrev PollData := ContainerGroup × (String → String)

/-- Monitor state: per-job log offsets, the completed set, the stored
results keyed by job name, the chunks written to stdout, and a count of
`poll_build` calls per job (the observable for "polling"). -/
structure WaitState where
  log_offsets : String → Nat
  completed : List String
  results : String → Option BuildResult
  stdout : List String
  polls : String → Nat

/-- Python `set.add`: insert without duplication. -/
def set_insert (xs : List String) (x : String) : List String :=
  if x ∈ xs then xs else x :: xs

/-- One iteration of the inner `for name in image_names` loop of
`wait_for_builds`: skip completed jobs; on a poll exception only the
attempt is recorded; on success store the result (with the caller's
portal URL attached), stream the log delta, and mark the job completed
when its state is the terminal sentinel. -/
def process_job (portal_urls : String → Option String) (use_groups : Bool)
    (envk : String → Option PollData) (st : WaitState) (name : String) : WaitState :=
  if name ∈ st.completed then st
  else
    match envk name with
    | none => { st with polls := Function.update st.polls name (st.polls name + 1) }
    | some pd =>
      let pr := poll_build name pd.1 pd.2
      let result := { pr.1 with portal_url := (portal_urls name).getD "" }
      let off_chunks := stream_log_delta name pr.2 (st.log_offsets name) use_groups
      let st' : WaitState :=
        { log_offsets := Function.update st.log_offsets name off_chunks.1
          completed := st.completed
          results := Function.update st.results name (some result)
          stdout := st.stdout ++ off_chunks.2
          polls := Function.update st.polls name (st.polls name + 1) }
      if result.state = TERMINATED then { st' with completed := set_insert st'.completed name }
      else st'

/-- One full sweep over the job list, in caller-supplied order. -/
def sweep (portal_urls : String → Option String) (use_groups : Bool)
    (envk : String → Option PollData) (names : List String) (st : WaitState) : WaitState :=
  names.foldl (process_job portal_urls use_groups envk) st

/-- The `while len(completed) < len(image_names)` loop, with explicit
fuel bounding the number of sweeps (the Python loop is unbounded; `none`
means the bound was reached before completion).  `k` is the sweep
index. -/
def wait_loop (portal_urls : String → Option String) (use_groups : Bool)
    (env : Nat → String → Option PollData) (names : List String) :
    Nat → Nat → WaitState → Option WaitState
  | 0, _, st => if st.completed.length < names.length then none else some st
  | fuel + 1, k, st =>
      if st.completed.length < names.length then
        wait_loop portal_urls use_groups env names fuel (k + 1)
          (sweep portal_urls use_groups (env k) names st)
      else some st

/-- Initial monitor state (offsets all zero, nothing completed, the
progress group marker printed in GitHub mode). -/
def init_state (in_github : Bool) : WaitState :=
  { log_offsets := fun _ => 0
    completed := []
    results := fun _ => none
    stdout := if in_github then ["::group::Build progress\n"] else []
    polls := fun _ => 0 }

/-- The final list comprehension `[results[name] for name in image_names]`:
`none` models the `KeyError` on a missing key. -/
def collect_results (names : List String) (f : String → Option BuildResult) :
    Option (List BuildResult) :=
  match names with
  | [] => some []
  | n :: rest =>
    match f n, collect_results rest f with
    | some r, some rs => some (r :: rs)
    | _, _ => none

/-- Embedding of `wait_for_builds`: run the polling loop from the initial state and
return the stored results in caller-supplied order (the outer `none` is
fuel exhaustion, i.e. the Python loop still running). -/
def wait_for_builds (fuel : Nat) (image_names : List String)
    (portal_urls : String → Option String) (in_github : Bool)
    (env : Nat → String → Option PollData) :
    Option (Option (List BuildResult) × WaitState) :=
  let use_groups := in_github && decide (1 < image_names.length)
  match wait_loop portal_urls use_groups env image_names fuel 0 (init_state in_github) with
  | none => none
  | some st =>
    let st := if in_github then { st with stdout := st.stdout ++ ["::endgroup::\n"] } else st
    some (collect_results image_names st.results, st)


/-! Concrete fixtures used to witness the claims on sample inputs. -/

/-- The current-state payload of a running container. -/
def ccs_run : ContainerCurrentState :=
  { state := some "Running", exit_code := none, detail_status := some "",
    start_time := some "2024-01-01 10:00:00+00:00", finish_time := none }

/-- The current-state payload of a container terminated with exit code 0. -/
def ccs_done : ContainerCurrentState :=
  { state := some "Terminated", exit_code := some 0, detail_status := some "Completed",
    start_time := some "2024-01-01 10:00:00+00:00",
    finish_time := some "2024-01-01 10:05:00+00:00" }

/-- A container group whose first container is still running. -/
def cg_run : ContainerGroup :=
  { containers := [{ name := "c0", instance_view := some ({ current_state := some ccs_run }) }]
    provisioning_state := some "Succeeded" }

/-- A container group whose first container has terminated with exit code 0. -/
def cg_done : ContainerGroup :=
  { containers := [{ name := "c0", instance_view := some ({ current_state := some ccs_done }) }]
    provisioning_state := some "Succeeded" }

/-- A sample log oracle. -/
def logs_w : String → String := fun _ => "line1\nline2"

/-- A poll environment where job "b" terminates on sweep 0 and every job
terminates from sweep 1 on (so completion order is "b" before "a"). -/
def env_w : Nat → String → Option PollData :=
  fun k n => if n = "b" ∨ 1 ≤ k then some (cg_done, logs_w) else some (cg_run, logs_w)

/-- A per-sweep environment raising an exception for job "a" only. -/
def ek_err : String → Option PollData :=
  fun n => if n = "a" then none else some (cg_done, logs_w)

/-- A mid-session monitor state with job "a" already completed. -/
def st_w : WaitState :=
  { log_offsets := fun _ => 3, completed := ["a"], results := fun _ => none,
    stdout := [], polls := fun _ => 5 }

/-- A successful build result. -/
def rb_ok : BuildResult :=
  { image_name := "img1", state := "Terminated", exit_code := some 0,
    start_time := none, finish_time := none, detail_status := "",
    logs_tail := "done", portal_url := "" }

/-- A failed build result. -/
def rb_bad : BuildResult :=
  { image_name := "img2", state := "Terminated", exit_code := some 1,
    start_time := none, finish_time := none, detail_status := "",
    logs_tail := "packer error", portal_url := "" }

/-- A still-indeterminate build result (no exit code). -/
def rb_none : BuildResult :=
  { image_name := "img3", state := "Running", exit_code := none,
    start_time := none, finish_time := none, detail_status := "",
    logs_tail := "", portal_url := "" }

/-- A failed build result whose image name contains a literal newline. -/
def rb_nl : BuildResult :=
  { image_name := "bad\nname", state := "Terminated", exit_code := some 1,
    start_time := none, finish_time := none, detail_status := "",
    logs_tail := "", portal_url := "" }

/-- Fixture `cg_done2`: `cg_done` with an extra trailing container appended (same first
container, same provisioning state). -/
def cg_done2 : ContainerGroup :=
  { containers := cg_done.containers ++ [{ name := "extra", instance_view := none }]
    provisioning_state := some "Succeeded" }

/-! Basic lemmas about the log-delta streamer. -/

theorem sld_no_growth (nm full : String) (prev : Nat) (ug : Bool)
    (h : full.length ≤ prev) : stream_log_delta nm full prev ug = (prev, []) := by
  unfold stream_log_delta
  simp [h]

theorem sld_growth (nm full : String) (prev : Nat) (ug : Bool)
    (h : prev < full.length) :
    stream_log_delta nm full prev ug =
      (full.length,
        (if ug then ["::group::" ++ nm ++ " (log update)\n"] else [])
          ++ [full.drop prev] ++ (if ug then ["::endgroup::\n"] else [])) := by
  unfold stream_log_delta
  simp [Nat.not_le.mpr h]

theorem sld_fst_ge (nm full : String) (prev : Nat) (ug : Bool) :
    prev ≤ (stream_log_delta nm full prev ug).1 := by
  unfold stream_log_delta
  split
  · exact Nat.le_refl prev
  · next h => exact Nat.le_of_lt (Nat.not_le.mp h)

/-! Lemmas about `poll_build`'s result fields. -/

theorem poll_build_image_name (n : String) (cg : ContainerGroup) (lo : String → String) :
    (poll_build n cg lo).1.image_name = n := by
  unfold poll_build
  rcases cg with ⟨cs, ps⟩
  rcases cs with _ | ⟨c, cs'⟩
  · rfl
  · rcases c with ⟨nm, iv⟩
    rcases iv with _ | ⟨curs⟩
    · rfl
    · rcases curs with _ | ⟨cur⟩ <;> rfl

theorem poll_build_logs_tail (n : String) (cg : ContainerGroup) (lo : String → String) :
    (poll_build n cg lo).1.logs_tail
      = tail_lines (lo (container_name_of n cg)) LOG_TAIL_LINES := by
  unfold poll_build
  rcases cg with ⟨cs, ps⟩
  rcases cs with _ | ⟨c, cs'⟩
  · rfl
  · rcases c with ⟨nm, iv⟩
    rcases iv with _ | ⟨curs⟩
    · rfl
    · rcases curs with _ | ⟨cur⟩ <;> rfl

theorem poll_build_snd (n : String) (cg : ContainerGroup) (lo : String → String) :
    (poll_build n cg lo).2 = lo (container_name_of n cg) := by
  unfold poll_build
  rcases cg with ⟨cs, ps⟩
  rcases cs with _ | ⟨c, cs'⟩
  · rfl
  · rcases c with ⟨nm, iv⟩
    rcases iv with _ | ⟨curs⟩
    · rfl
    · rcases curs with _ | ⟨cur⟩ <;> rfl

/-! Lemmas about `set_insert`. -/

theorem set_insert_mem (xs : List String) (x y : String) :
    y ∈ set_insert xs x ↔ y = x ∨ y ∈ xs := by
  unfold set_insert
  split
  · next h =>
      constructor
      · exact fun hy => Or.inr hy
      · rintro (rfl | hy)
        · exact h
        · exact hy
  · simp [List.mem_cons]

theorem set_insert_nodup (xs : List String) (x : String) (h : xs.Nodup) :
    (set_insert xs x).Nodup := by
  unfold set_insert
  split
  · exact h
  · next hx => exact List.nodup_cons.mpr ⟨hx, h⟩

/-! Component lemmas for one step (`process_job`) of a sweep. -/

theorem pj_of_mem (pu : String → Option String) (ug : Bool)
    (ek : String → Option PollData) (st : WaitState) (name : String)
    (h : name ∈ st.completed) : process_job pu ug ek st name = st := by
  unfold process_job
  simp [h]

theorem pj_err (pu : String → Option String) (ug : Bool)
    (ek : String → Option PollData) (st : WaitState) (name : String)
    (hmem : name ∉ st.completed) (hek : ek name = none) :
    process_job pu ug ek st name
      = { st with polls := Function.update st.polls name (st.polls name + 1) } := by
  unfold process_job
  simp [hmem, hek]

theorem pj_polls_other (pu : String → Option String) (ug : Bool)
    (ek : String → Option PollData) (st : WaitState) (name m : String)
    (h : m ≠ name) : (process_job pu ug ek st name).polls m = st.polls m := by
  unfold process_job
  split
  · rfl
  · cases hek : ek name with
    | none => simp [Function.update_noteq h]
    | some pd =>
      dsimp only
      split <;> simp [Function.update_noteq h]

theorem pj_offsets_other (pu : String → Option String) (ug : Bool)
    (ek : String → Option PollData) (st : WaitState) (name m : String)
    (h : m ≠ name) : (process_job pu ug ek st name).log_offsets m = st.log_offsets m := by
  unfold process_job
  split
  · rfl
  · cases hek : ek name with
    | none => rfl
    | some pd =>
      dsimp only
      split <;> simp [Function.update_noteq h]

theorem pj_results_other (pu : String → Option String) (ug : Bool)
    (ek : String → Option PollData) (st : WaitState) (name m : String)
    (h : m ≠ name) : (process_job pu ug ek st name).results m = st.results m := by
  unfold process_job
  split
  · rfl
  · cases hek : ek name with
    | none => rfl
    | some pd =>
      dsimp only
      split <;> simp [Function.update_noteq h]

theorem pj_completed_of_mem (pu : String → Option String) (ug : Bool)
    (ek : String → Option PollData) (st : WaitState) (name x : String)
    (h : x ∈ st.completed) : x ∈ (process_job pu ug ek st name).completed := by
  unfold process_job
  split
  · exact h
  · cases hek : ek name with
    | none => exact h
    | some pd =>
      dsimp only
      split
      · exact (set_insert_mem _ _ _).mpr (Or.inr h)
      · exact h

theorem pj_completed_sub (pu : String → Option String) (ug : Bool)
    (ek : String → Option PollData) (st : WaitState) (name x : String)
    (h : x ∈ (process_job pu ug ek st name).completed) : x = name ∨ x ∈ st.completed := by
  unfold process_job at h
  split at h
  · exact Or.inr h
  · cases hek : ek name with
    | none =>
      rw [hek] at h
      exact Or.inr h
    | some pd =>
      rw [hek] at h
      dsimp only at h
      split at h
      · rcases (set_insert_mem _ _ _).mp h with h' | h'
        · exact Or.inl h'
        · exact Or.inr h'
      · exact Or.inr h

theorem pj_offsets_ge (pu : String → Option String) (ug : Bool)
    (ek : String → Option PollData) (st : WaitState) (name m : String) :
    st.log_offsets m ≤ (process_job pu ug ek st name).log_offsets m := by
  unfold process_job
  split
  · exact Nat.le_refl _
  · cases hek : ek name with
    | none => exact Nat.le_refl _
    | some pd =>
      dsimp only
      by_cases hm : m = name
      · subst hm
        split <;> simpa using sld_fst_ge _ _ _ _
      · split <;> simp [Function.update_noteq hm]

theorem pj_nodup (pu : String → Option String) (ug : Bool)
    (ek : String → Option PollData) (st : WaitState) (name : String)
    (h : st.completed.Nodup) : (process_job pu ug ek st name).completed.Nodup := by
  unfold process_job
  split
  · exact h
  · cases hek : ek name with
    | none => exact h
    | some pd =>
      dsimp only
      split
      · exact set_insert_nodup _ _ h
      · exact h

theorem pj_polls_self (pu : String → Option String) (ug : Bool)
    (ek : String → Option PollData) (st : WaitState) (name : String)
    (hmem : name ∉ st.completed) :
    (process_job pu ug ek st name).polls name = st.polls name + 1 := by
  unfold process_job
  simp only [hmem, if_false]
  cases hek : ek name with
  | none => simp
  | some pd =>
    dsimp only
    split <;> simp

theorem pj_results_self_ok (pu : String → Option String) (ug : Bool)
    (ek : String → Option PollData) (st : WaitState) (name : String) (pd : PollData)
    (hmem : name ∉ st.completed) (hek : ek name = some pd) :
    (process_job pu ug ek st name).results name
      = some { (poll_build name pd.1 pd.2).1 with portal_url := (pu name).getD "" } := by
  unfold process_job
  simp only [hmem, if_false, hek]
  split <;> simp

theorem pj_offsets_self_ok (pu : String → Option String) (ug : Bool)
    (ek : String → Option PollData) (st : WaitState) (name : String) (pd : PollData)
    (hmem : name ∉ st.completed) (hek : ek name = some pd) :
    (process_job pu ug ek st name).log_offsets name
      = (stream_log_delta name (poll_build name pd.1 pd.2).2 (st.log_offsets name) ug).1 := by
  unfold process_job
  simp only [hmem, if_false, hek]
  split <;> simp

theorem pj_completed_self_ok (pu : String → Option String) (ug : Bool)
    (ek : String → Option PollData) (st : WaitState) (name : String) (pd : PollData)
    (hmem : name ∉ st.completed) (hek : ek name = some pd) :
    (name ∈ (process_job pu ug ek st name).completed
      ↔ (poll_build name pd.1 pd.2).1.state = TERMINATED) := by
  unfold process_job
  simp only [hmem, if_false, hek]
  split
  · next hterm =>
      simp only [set_insert_mem]
      constructor
      · intro _
        simpa using hterm
      · intro _
        exact Or.inl trivial
  · next hterm =>
      constructor
      · intro h
        exact absurd h hmem
      · intro h
        exact absurd (by simpa using h) hterm

theorem pj_completed_other (pu : String → Option String) (ug : Bool)
    (ek : String → Option PollData) (st : WaitState) (name m : String)
    (h : m ≠ name) :
    (m ∈ (process_job pu ug ek st name).completed ↔ m ∈ st.completed) := by
  constructor
  · intro hm
    rcases pj_completed_sub pu ug ek st name m hm with h' | h'
    · exact absurd h' h
    · exact h'
  · exact pj_completed_of_mem pu ug ek st name m

/-! Sweep-level lemmas, by induction along the job list. -/

theorem sweep_cons (pu : String → Option String) (ug : Bool)
    (ek : String → Option PollData) (n : String) (ns : List String) (st : WaitState) :
    sweep pu ug ek (n :: ns) st = sweep pu ug ek ns (process_job pu ug ek st n) := rfl

theorem sweep_untouched (pu : String → Option String) (ug : Bool)
    (ek : String → Option PollData) (names : List String) (st : WaitState) (m : String)
    (hm : m ∉ names) :
    (sweep pu ug ek names st).polls m = st.polls m ∧
    (sweep pu ug ek names st).log_offsets m = st.log_offsets m ∧
    (sweep pu ug ek names st).results m = st.results m ∧
    (m ∈ (sweep pu ug ek names st).completed ↔ m ∈ st.completed) := by
  induction names generalizing st with
  | nil => simp [sweep]
  | cons n ns ih =>
    rw [List.mem_cons] at hm
    push_neg at hm
    obtain ⟨hmn, hmns⟩ := hm
    rw [sweep_cons]
    obtain ⟨h1, h2, h3, h4⟩ := ih (process_job pu ug ek st n) hmns
    refine ⟨?_, ?_, ?_, ?_⟩
    · rw [h1, pj_polls_other pu ug ek st n m hmn]
    · rw [h2, pj_offsets_other pu ug ek st n m hmn]
    · rw [h3, pj_results_other pu ug ek st n m hmn]
    · rw [h4, pj_completed_other pu ug ek st n m hmn]

theorem sweep_completed_of_mem (pu : String → Option String) (ug : Bool)
    (ek : String → Option PollData) (names : List String) (st : WaitState) (x : String)
    (h : x ∈ st.completed) : x ∈ (sweep pu ug ek names st).completed := by
  induction names generalizing st with
  | nil => exact h
  | cons n ns ih =>
    rw [sweep_cons]
    exact ih _ (pj_completed_of_mem pu ug ek st n x h)

theorem sweep_completed_sub (pu : String → Option String) (ug : Bool)
    (ek : String → Option PollData) (names : List String) (st : WaitState) (x : String)
    (h : x ∈ (sweep pu ug ek names st).completed) : x ∈ names ∨ x ∈ st.completed := by
  induction names generalizing st with
  | nil => exact Or.inr h
  | cons n ns ih =>
    rw [sweep_cons] at h
    rcases ih _ h with h' | h'
    · exact Or.inl (List.mem_cons_of_mem n h')
    · rcases pj_completed_sub pu ug ek st n x h' with h'' | h''
      · exact Or.inl (h'' ▸ List.mem_cons_self n ns)
      · exact Or.inr h''

theorem sweep_offsets_ge (pu : String → Option String) (ug : Bool)
    (ek : String → Option PollData) (names : List String) (st : WaitState) (m : String) :
    st.log_offsets m ≤ (sweep pu ug ek names st).log_offsets m := by
  induction names generalizing st with
  | nil => exact Nat.le_refl _
  | cons n ns ih =>
    rw [sweep_cons]
    exact Nat.le_trans (pj_offsets_ge pu ug ek st n m) (ih _)

theorem sweep_frame_completed (pu : String → Option String) (ug : Bool)
    (ek : String → Option PollData) (names : List String) (st : WaitState) (m : String)
    (h : m ∈ st.completed) :
    (sweep pu ug ek names st).polls m = st.polls m ∧
    (sweep pu ug ek names st).log_offsets m = st.log_offsets m ∧
    (sweep pu ug ek names st).results m = st.results m ∧
    m ∈ (sweep pu ug ek names st).completed := by
  induction names generalizing st with
  | nil => exact ⟨rfl, rfl, rfl, h⟩
  | cons n ns ih =>
    rw [sweep_cons]
    by_cases hmn : n = m
    · subst hmn
      rw [pj_of_mem pu ug ek st n h]
      exact ih st h
    · have hne : m ≠ n := fun hc => hmn hc.symm
      obtain ⟨h1, h2, h3, h4⟩ := ih (process_job pu ug ek st n) (pj_completed_of_mem pu ug ek st n m h)
      refine ⟨?_, ?_, ?_, h4⟩
      · rw [h1, pj_polls_other pu ug ek st n m hne]
      · rw [h2, pj_offsets_other pu ug ek st n m hne]
      · rw [h3, pj_results_other pu ug ek st n m hne]

theorem sweep_nodup (pu : String → Option String) (ug : Bool)
    (ek : String → Option PollData) (names : List String) (st : WaitState)
    (h : st.completed.Nodup) : (sweep pu ug ek names st).completed.Nodup := by
  induction names generalizing st with
  | nil => exact h
  | cons n ns ih =>
    rw [sweep_cons]
    exact ih _ (pj_nodup pu ug ek st n h)

theorem sweep_append (pu : String → Option String) (ug : Bool)
    (ek : String → Option PollData) (l₁ l₂ : List String) (m : String) (st : WaitState) :
    sweep pu ug ek (l₁ ++ m :: l₂) st
      = sweep pu ug ek l₂ (process_job pu ug ek (sweep pu ug ek l₁ st) m) := by
  unfold sweep
  rw [List.foldl_append]
  rfl

/-! Loop-level lemmas for `wait_loop`. -/

theorem wait_loop_zero (pu : String → Option String) (ug : Bool)
    (env : Nat → String → Option PollData) (names : List String) (k : Nat) (st : WaitState) :
    wait_loop pu ug env names 0 k st
      = if st.completed.length < names.length then none else some st := rfl

theorem wait_loop_succ (pu : String → Option String) (ug : Bool)
    (env : Nat → String → Option PollData) (names : List String) (fuel k : Nat) (st : WaitState) :
    wait_loop pu ug env names (fuel + 1) k st
      = if st.completed.length < names.length then
          wait_loop pu ug env names fuel (k + 1) (sweep pu ug (env k) names st)
        else some st := rfl

theorem wait_loop_of_complete (pu : String → Option String) (ug : Bool)
    (env : Nat → String → Option PollData) (names : List String) (fuel k : Nat) (st : WaitState)
    (h : ¬ st.completed.length < names.length) :
    wait_loop pu ug env names fuel k st = some st := by
  cases fuel with
  | zero => rw [wait_loop_zero]; simp [h]
  | succ fuel => rw [wait_loop_succ]; simp [h]

theorem wait_loop_mono (pu : String → Option String) (ug : Bool)
    (env : Nat → String → Option PollData) (names : List String) :
    ∀ (fuel k : Nat) (st st' : WaitState),
    wait_loop pu ug env names fuel k st = some st' →
    (∀ n, st.log_offsets n ≤ st'.log_offsets n) ∧
    (∀ m ∈ st.completed,
      m ∈ st'.completed ∧ st'.polls m = st.polls m ∧
      st'.log_offsets m = st.log_offsets m ∧ st'.results m = st.results m) := by
  intro fuel
  induction fuel with
  | zero =>
    intro k st st' h
    rw [wait_loop_zero] at h
    split at h
    · exact absurd h (by simp)
    · obtain rfl := Option.some.inj h
      exact ⟨fun n => Nat.le_refl _, fun m hm => ⟨hm, rfl, rfl, rfl⟩⟩
  | succ fuel ih =>
    intro k st st' h
    rw [wait_loop_succ] at h
    split at h
    · obtain ⟨hmono, hframe⟩ := ih (k + 1) (sweep pu ug (env k) names st) st' h
      constructor
      · intro n
        exact Nat.le_trans (sweep_offsets_ge pu ug (env k) names st n) (hmono n)
      · intro m hm
        obtain ⟨q1, q2, q3, q4⟩ := sweep_frame_completed pu ug (env k) names st m hm
        obtain ⟨w1, w2, w3, w4⟩ := hframe m q4
        exact ⟨w1, by rw [w2, q1], by rw [w3, q2], by rw [w4, q3]⟩
    · obtain rfl := Option.some.inj h
      exact ⟨fun n => Nat.le_refl _, fun m hm => ⟨hm, rfl, rfl, rfl⟩⟩

theorem wait_loop_exit (pu : String → Option String) (ug : Bool)
    (env : Nat → String → Option PollData) (names : List String) :
    ∀ (fuel k : Nat) (st st' : WaitState),
    wait_loop pu ug env names fuel k st = some st' →
    names.length ≤ st'.completed.length := by
  intro fuel
  induction fuel with
  | zero =>
    intro k st st' h
    rw [wait_loop_zero] at h
    split at h
    · exact absurd h (by simp)
    · next hge =>
        obtain rfl := Option.some.inj h
        exact Nat.le_of_not_lt hge
  | succ fuel ih =>
    intro k st st' h
    rw [wait_loop_succ] at h
    split at h
    · exact ih (k + 1) _ st' h
    · next hge =>
        obtain rfl := Option.some.inj h
        exact Nat.le_of_not_lt hge

theorem sweep_inv (pu : String → Option String) (ug : Bool)
    (ek : String → Option PollData) (P : WaitState → Prop) :
    ∀ (names : List String) (st : WaitState),
    (∀ (st' : WaitState) (n : String), n ∈ names → P st' → P (process_job pu ug ek st' n)) →
    P st → P (sweep pu ug ek names st) := by
  intro names
  induction names with
  | nil =>
    intro st _ h
    exact h
  | cons n ns ih =>
    intro st hP h
    rw [sweep_cons]
    exact ih _ (fun st' m hm hp => hP st' m (List.mem_cons_of_mem n hm) hp)
      (hP st n (List.mem_cons_self n ns) h)

theorem wait_loop_inv (pu : String → Option String) (ug : Bool)
    (env : Nat → String → Option PollData) (names : List String) (P : WaitState → Prop)
    (hP : ∀ (k : Nat) (st : WaitState), P st → P (sweep pu ug (env k) names st)) :
    ∀ (fuel k : Nat) (st st' : WaitState),
    wait_loop pu ug env names fuel k st = some st' → P st → P st' := by
  intro fuel
  induction fuel with
  | zero =>
    intro k st st' h hp
    rw [wait_loop_zero] at h
    split at h
    · exact absurd h (by simp)
    · obtain rfl := Option.some.inj h
      exact hp
  | succ fuel ih =>
    intro k st st' h hp
    rw [wait_loop_succ] at h
    split at h
    · exact ih (k + 1) _ st' h (hP k st hp)
    · obtain rfl := Option.some.inj h
      exact hp

theorem sweep_polls_incr (pu : String → Option String) (ug : Bool)
    (ek : String → Option PollData) (names : List String) (st : WaitState) (m : String)
    (hnd : names.Nodup) (hm : m ∈ names) (hc : m ∉ st.completed) :
    (sweep pu ug ek names st).polls m = st.polls m + 1 := by
  obtain ⟨l₁, l₂, rfl⟩ := List.append_of_mem hm
  rw [List.nodup_append] at hnd
  obtain ⟨h₁, h₂, hdisj⟩ := hnd
  have hml₂ : m ∉ l₂ := (List.nodup_cons.mp h₂).1
  have hml₁ : m ∉ l₁ := fun hin => hdisj hin (List.mem_cons_self m l₂)
  rw [sweep_append]
  obtain ⟨p1, _, _, c1⟩ := sweep_untouched pu ug ek l₁ st m hml₁
  have hc1 : m ∉ (sweep pu ug ek l₁ st).completed := fun h => hc (c1.mp h)
  obtain ⟨p2, _, _, _⟩ :=
    sweep_untouched pu ug ek l₂ (process_job pu ug ek (sweep pu ug ek l₁ st) m) m hml₂
  rw [p2, pj_polls_self pu ug ek _ m hc1, p1]

theorem sweep_all_terminal (pu : String → Option String) (ug : Bool)
    (ek : String → Option PollData) :
    ∀ (names : List String) (st : WaitState),
    (∀ n ∈ names, n ∈ st.completed
      ∨ ∃ pd, ek n = some pd ∧ (poll_build n pd.1 pd.2).1.state = TERMINATED) →
    ∀ n ∈ names, n ∈ (sweep pu ug ek names st).completed := by
  intro names
  induction names with
  | nil =>
    intro st _ n hn
    exact absurd hn (List.not_mem_nil n)
  | cons x xs ih =>
    intro st hall n hn
    rw [sweep_cons]
    have hx : x ∈ (process_job pu ug ek st x).completed := by
      rcases hall x (List.mem_cons_self x xs) with h | ⟨pd, hek, hterm⟩
      · exact pj_completed_of_mem pu ug ek st x x h
      · by_cases hmem : x ∈ st.completed
        · exact pj_completed_of_mem pu ug ek st x x hmem
        · exact (pj_completed_self_ok pu ug ek st x pd hmem hek).mpr hterm
    rcases List.mem_cons.mp hn with rfl | hn'
    · exact sweep_completed_of_mem pu ug ek xs _ n hx
    · refine ih _ ?_ n hn'
      intro y hy
      rcases hall y (List.mem_cons_of_mem x hy) with h | hr
      · exact Or.inl (pj_completed_of_mem pu ug ek st x y h)
      · exact Or.inr hr

theorem len_le_of_nodup_sub (names comp : List String)
    (hnd : names.Nodup) (hall : ∀ n ∈ names, n ∈ comp) :
    names.length ≤ comp.length := by
  have hsub : names.toFinset ⊆ comp.toFinset := by
    intro x hx
    rw [List.mem_toFinset] at hx ⊢
    exact hall x hx
  calc names.length = names.toFinset.card := (List.toFinset_card_of_nodup hnd).symm
  _ ≤ comp.toFinset.card := Finset.card_le_card hsub
  _ ≤ comp.length := List.toFinset_card_le comp

theorem all_completed_of_exit (names comp : List String)
    (hsub : ∀ x ∈ comp, x ∈ names) (hnd : comp.Nodup)
    (hlen : names.length ≤ comp.length) :
    ∀ n ∈ names, n ∈ comp := by
  have hsub' : comp.toFinset ⊆ names.toFinset := by
    intro x hx
    rw [List.mem_toFinset] at hx ⊢
    exact hsub x hx
  have hcard : names.toFinset.card ≤ comp.toFinset.card := by
    calc names.toFinset.card ≤ names.length := List.toFinset_card_le names
    _ ≤ comp.length := hlen
    _ = comp.toFinset.card := (List.toFinset_card_of_nodup hnd).symm
  have heq := Finset.eq_of_subset_of_card_le hsub' hcard
  intro n hn
  have h1 : n ∈ names.toFinset := List.mem_toFinset.mpr hn
  rw [← heq] at h1
  exact List.mem_toFinset.mp h1

theorem wait_loop_terminates (pu : String → Option String) (ug : Bool)
    (env : Nat → String → Option PollData) (names : List String) (K : Nat)
    (hnd : names.Nodup)
    (hterm : ∀ n ∈ names,
      ∃ pd, env K n = some pd ∧ (poll_build n pd.1 pd.2).1.state = TERMINATED) :
    ∀ (fuel k : Nat) (st : WaitState), k ≤ K → K < k + fuel →
      st.completed.Nodup → (∀ x ∈ st.completed, x ∈ names) →
      ∃ st', wait_loop pu ug env names fuel k st = some st' := by
  intro fuel
  induction fuel with
  | zero =>
    intro k st hk hK _ _
    omega
  | succ fuel ih =>
    intro k st hk hK hnds hsub
    rw [wait_loop_succ]
    split
    · next hcond =>
        by_cases hkK : k = K
        · subst hkK
          have hall : ∀ n ∈ names, n ∈ (sweep pu ug (env k) names st).completed := by
            apply sweep_all_terminal
            intro n hn
            exact Or.inr (hterm n hn)
          have hlen : names.length ≤ (sweep pu ug (env k) names st).completed.length :=
            len_le_of_nodup_sub names _ hnd hall
          exact ⟨_, wait_loop_of_complete pu ug env names fuel (k + 1) _ (Nat.not_lt.mpr hlen)⟩
        · have hsub₁ : ∀ x ∈ (sweep pu ug (env k) names st).completed, x ∈ names := by
            intro x hx
            rcases sweep_completed_sub pu ug (env k) names st x hx with h | h
            · exact h
            · exact hsub x h
          exact ih (k + 1) (sweep pu ug (env k) names st) (by omega) (by omega)
            (sweep_nodup pu ug (env k) names st hnds) hsub₁
    · exact ⟨st, rfl⟩

theorem collect_results_some (names : List String) (f : String → Option BuildResult)
    (hall : ∀ n ∈ names, ∃ r, f n = some r) :
    ∃ l, collect_results names f = some l ∧ l.length = names.length ∧
      ∀ (i : Nat) (h₁ : i < l.length) (h₂ : i < names.length),
        f (names.get ⟨i, h₂⟩) = some (l.get ⟨i, h₁⟩) := by
  induction names with
  | nil =>
    exact ⟨[], rfl, rfl, fun i h₁ _ => absurd h₁ (Nat.not_lt_zero i)⟩
  | cons n ns ih =>
    obtain ⟨r, hr⟩ := hall n (List.mem_cons_self n ns)
    obtain ⟨l, hl, hlen, hget⟩ := ih (fun m hm => hall m (List.mem_cons_of_mem n hm))
    refine ⟨r :: l, ?_, ?_, ?_⟩
    · unfold collect_results
      rw [hr, hl]
    · simp [hlen]
    · intro i h₁ h₂
      cases i with
      | zero => exact hr
      | succ j => exact hget j (Nat.lt_of_succ_lt_succ h₁) (Nat.lt_of_succ_lt_succ h₂)

/-! State invariants of the monitor loop: stored results carry their own
job name, every completed job has a stored result, and every completed
job's stored result is the `poll_build` output of a sweep that observed
the terminal sentinel. -/

theorem pj_inv_named (pu : String → Option String) (ug : Bool)
    (ek : String → Option PollData) (st : WaitState) (name : String)
    (h : ∀ n r, st.results n = some r → r.image_name = n) :
    ∀ n r, (process_job pu ug ek st name).results n = some r → r.image_name = n := by
  intro n r hr
  by_cases hn : n = name
  · subst hn
    by_cases hmem : n ∈ st.completed
    · rw [pj_of_mem pu ug ek st n hmem] at hr
      exact h n r hr
    · cases hek : ek n with
      | none =>
        rw [pj_err pu ug ek st n hmem hek] at hr
        exact h n r hr
      | some pd =>
        rw [pj_results_self_ok pu ug ek st n pd hmem hek] at hr
        obtain rfl := Option.some.inj hr
        simpa using poll_build_image_name n pd.1 pd.2
  · rw [pj_results_other pu ug ek st name n hn] at hr
    exact h n r hr

theorem pj_inv_has_result (pu : String → Option String) (ug : Bool)
    (ek : String → Option PollData) (st : WaitState) (name : String)
    (h : ∀ n ∈ st.completed, ∃ r, st.results n = some r) :
    ∀ n ∈ (process_job pu ug ek st name).completed,
      ∃ r, (process_job pu ug ek st name).results n = some r := by
  intro n hn
  rcases pj_completed_sub pu ug ek st name n hn with rfl | hold
  · by_cases hmem : n ∈ st.completed
    · rw [pj_of_mem pu ug ek st n hmem]
      exact h n hmem
    · cases hek : ek n with
      | none =>
        rw [pj_err pu ug ek st n hmem hek] at hn
        exact absurd hn hmem
      | some pd =>
        exact ⟨_, pj_results_self_ok pu ug ek st n pd hmem hek⟩
  · by_cases hname : name = n
    · subst hname
      rw [pj_of_mem pu ug ek st name hold]
      exact h name hold
    · have hne : n ≠ name := fun hc => hname hc.symm
      rw [pj_results_other pu ug ek st name n hne]
      exact h n hold

theorem pj_inv_term (pu : String → Option String) (ug : Bool)
    (env : Nat → String → Option PollData) (k₀ : Nat) (st : WaitState) (name : String)
    (h : ∀ n ∈ st.completed,
      ∃ k pd, env k n = some pd ∧ (poll_build n pd.1 pd.2).1.state = TERMINATED ∧
        st.results n = some { (poll_build n pd.1 pd.2).1 with portal_url := (pu n).getD "" }) :
    ∀ n ∈ (process_job pu ug (env k₀) st name).completed,
      ∃ k pd, env k n = some pd ∧ (poll_build n pd.1 pd.2).1.state = TERMINATED ∧
        (process_job pu ug (env k₀) st name).results n
          = some { (poll_build n pd.1 pd.2).1 with portal_url := (pu n).getD "" } := by
  intro n hn
  rcases pj_completed_sub pu ug (env k₀) st name n hn with rfl | hold
  · by_cases hmem : n ∈ st.completed
    · rw [pj_of_mem pu ug (env k₀) st n hmem]
      exact h n hmem
    · cases hek : env k₀ n with
      | none =>
        rw [pj_err pu ug (env k₀) st n hmem hek] at hn
        exact absurd hn hmem
      | some pd =>
        have hterm := (pj_completed_self_ok pu ug (env k₀) st n pd hmem hek).mp hn
        exact ⟨k₀, pd, hek, hterm, pj_results_self_ok pu ug (env k₀) st n pd hmem hek⟩
  · by_cases hname : name = n
    · subst hname
      rw [pj_of_mem pu ug (env k₀) st name hold]
      exact h name hold
    · have hne : n ≠ name := fun hc => hname hc.symm
      rw [pj_results_other pu ug (env k₀) st name n hne]
      exact h n hold

/-- Facts about any state in which the polling loop, started from the
initial state, has exited. -/
theorem wait_loop_init_facts (pu : String → Option String) (ug : Bool)
    (env : Nat → String → Option PollData) (names : List String) (ig : Bool)
    (fuel : Nat) (st' : WaitState)
    (h : wait_loop pu ug env names fuel 0 (init_state ig) = some st') :
    (∀ n r, st'.results n = some r → r.image_name = n) ∧
    (∀ n ∈ names, n ∈ st'.completed) ∧
    (∀ n ∈ st'.completed,
      ∃ k pd, env k n = some pd ∧ (poll_build n pd.1 pd.2).1.state = TERMINATED ∧
        st'.results n = some { (poll_build n pd.1 pd.2).1 with portal_url := (pu n).getD "" }) := by
  have hnamed : ∀ n r, st'.results n = some r → r.image_name = n := by
    refine wait_loop_inv pu ug env names
      (fun st => ∀ n r, st.results n = some r → r.image_name = n) ?_ fuel 0 _ st' h ?_
    · intro k st hst
      exact sweep_inv pu ug (env k) _ names st
        (fun st₀ n _ h₀ => pj_inv_named pu ug (env k) st₀ n h₀) hst
    · intro n r hr
      exact absurd hr (by simp [init_state])
  have hsubn : ∀ x ∈ st'.completed, x ∈ names := by
    refine wait_loop_inv pu ug env names (fun st => ∀ x ∈ st.completed, x ∈ names) ?_
      fuel 0 _ st' h ?_
    · intro k st hst x hx
      rcases sweep_completed_sub pu ug (env k) names st x hx with h' | h'
      · exact h'
      · exact hst x h'
    · intro x hx
      exact absurd hx (by simp [init_state])
  have hnodup : st'.completed.Nodup := by
    refine wait_loop_inv pu ug env names (fun st => st.completed.Nodup) ?_ fuel 0 _ st' h ?_
    · intro k st hst
      exact sweep_nodup pu ug (env k) names st hst
    · simp [init_state]
  have hexit := wait_loop_exit pu ug env names fuel 0 _ st' h
  have hall : ∀ n ∈ names, n ∈ st'.completed :=
    all_completed_of_exit names st'.completed hsubn hnodup hexit
  have hterm : ∀ n ∈ st'.completed,
      ∃ k pd, env k n = some pd ∧ (poll_build n pd.1 pd.2).1.state = TERMINATED ∧
        st'.results n = some { (poll_build n pd.1 pd.2).1 with portal_url := (pu n).getD "" } := by
    refine wait_loop_inv pu ug env names (fun st => ∀ n ∈ st.completed,
      ∃ k pd, env k n = some pd ∧ (poll_build n pd.1 pd.2).1.state = TERMINATED ∧
        st.results n = some { (poll_build n pd.1 pd.2).1 with portal_url := (pu n).getD "" }) ?_
      fuel 0 _ st' h ?_
    · intro k st hst
      exact sweep_inv pu ug (env k) _ names st
        (fun st₀ n _ h₀ => pj_inv_term pu ug env k st₀ n h₀) hst
    · intro n hn
      exact absurd hn (by simp [init_state])
  exact ⟨hnamed, hall, hterm⟩

/-- Unfolding `wait_for_builds` once the loop has exited. -/
theorem wfb_unfold (pu : String → Option String) (ig : Bool)
    (env : Nat → String → Option PollData) (names : List String) (fuel : Nat) (st' : WaitState)
    (h : wait_loop pu (ig && decide (1 < names.length)) env names fuel 0 (init_state ig)
          = some st') :
    wait_for_builds fuel names pu ig env
      = some (collect_results names st'.results,
          if ig then { st' with stdout := st'.stdout ++ ["::endgroup::\n"] } else st') := by
  unfold wait_for_builds
  simp only [h]
  cases ig <;> rfl

/-- Claim C1: for every caller-supplied list of (distinct) job
identifiers whose jobs all reach the terminal sentinel by some sweep,
`wait_for_builds` returns one `BuildResult` per identifier in exactly the
caller-supplied order, regardless of the order in which jobs reached the
terminal state; for the empty identifier list it returns the empty list
without issuing any poll and without error. -/
theorem claim_C1_order_and_empty :
    (∀ (names : List String) (pu : String → Option String) (ig : Bool)
       (env : Nat → String → Option PollData) (K : Nat),
      names.Nodup →
      (∀ n ∈ names, ∃ pd, env K n = some pd ∧ (poll_build n pd.1 pd.2).1.state = TERMINATED) →
      ∃ st l, wait_for_builds (K + 1) names pu ig env = some (some l, st) ∧
        l.length = names.length ∧
        ∀ (i : Nat) (h₁ : i < l.length) (h₂ : i < names.length),
          (l.get ⟨i, h₁⟩).image_name = names.get ⟨i, h₂⟩) ∧
    (∀ (fuel : Nat) (pu : String → Option String) (ig : Bool)
       (env : Nat → String → Option PollData),
      ∃ st, wait_for_builds fuel [] pu ig env = some (some [], st) ∧ ∀ n, st.polls n = 0) := by
  constructor
  · intro names pu ig env K hnd hterm
    obtain ⟨st', hloop⟩ := wait_loop_terminates pu (ig && decide (1 < names.length)) env names K
      hnd hterm (K + 1) 0 (init_state ig) (Nat.zero_le K) (by omega)
      (by simp [init_state]) (by intro x hx; simp [init_state] at hx)
    obtain ⟨hnamed, hall, hprov⟩ :=
      wait_loop_init_facts pu (ig && decide (1 < names.length)) env names ig (K + 1) st' hloop
    have hhas : ∀ n ∈ names, ∃ r, st'.results n = some r := by
      intro n hn
      obtain ⟨k, pd, _, _, hres⟩ := hprov n (hall n hn)
      exact ⟨_, hres⟩
    obtain ⟨l, hcol, hlen, hget⟩ := collect_results_some names st'.results hhas
    have hwfb := wfb_unfold pu ig env names (K + 1) st' hloop
    rw [hcol] at hwfb
    refine ⟨_, l, hwfb, hlen, ?_⟩
    intro i h₁ h₂
    exact hnamed _ _ (hget i h₁ h₂)
  · intro fuel pu ig env
    have hloop : wait_loop pu (ig && decide (1 < ([] : List String).length)) env [] fuel 0
        (init_state ig) = some (init_state ig) :=
      wait_loop_of_complete _ _ _ _ _ _ _ (by simp)
    have hwfb := wfb_unfold pu ig env [] fuel (init_state ig) hloop
    rw [show collect_results [] (init_state ig).results = some [] from rfl] at hwfb
    refine ⟨_, hwfb, ?_⟩
    intro n
    cases ig <;> rfl

/-- Witness for claim C1: two jobs where "b" terminates first (sweep 0)
and "a" only on sweep 1; the returned list is still ordered ["a", "b"]. -/
theorem claim_C1_witness :
    ∃ st l, wait_for_builds 2 ["a", "b"] (fun _ => none) false env_w = some (some l, st) ∧
      l.length = (["a", "b"] : List String).length ∧
      ∀ (i : Nat) (h₁ : i < l.length) (h₂ : i < (["a", "b"] : List String).length),
        (l.get ⟨i, h₁⟩).image_name = (["a", "b"] : List String).get ⟨i, h₂⟩ := by
  apply claim_C1_order_and_empty.1 ["a", "b"] (fun _ => none) false env_w 1 (by decide)
  intro n hn
  rcases List.mem_cons.mp hn with rfl | hn
  · exact ⟨(cg_done, logs_w), rfl, rfl⟩
  · rcases List.mem_cons.mp hn with rfl | hn
    · exact ⟨(cg_done, logs_w), rfl, rfl⟩
    · exact absurd hn (List.not_mem_nil n)

/-- Claim C2: across sweeps of the monitor, each job's log offset is
non-decreasing and completion is monotone: a completed job is never
polled again, never leaves the completed set, and its offset and stored
result never change, both over a single sweep and over any completed run
of the polling loop. -/
theorem claim_C2_monotone :
    (∀ (pu : String → Option String) (ug : Bool) (ek : String → Option PollData)
       (names : List String) (st : WaitState),
      (∀ n, st.log_offsets n ≤ (sweep pu ug ek names st).log_offsets n) ∧
      (∀ m ∈ st.completed,
        m ∈ (sweep pu ug ek names st).completed ∧
        (sweep pu ug ek names st).polls m = st.polls m ∧
        (sweep pu ug ek names st).log_offsets m = st.log_offsets m ∧
        (sweep pu ug ek names st).results m = st.results m)) ∧
    (∀ (pu : String → Option String) (ug : Bool) (env : Nat → String → Option PollData)
       (names : List String) (fuel k : Nat) (st st' : WaitState),
      wait_loop pu ug env names fuel k st = some st' →
      (∀ n, st.log_offsets n ≤ st'.log_offsets n) ∧
      (∀ m ∈ st.completed,
        m ∈ st'.completed ∧ st'.polls m = st.polls m ∧
        st'.log_offsets m = st.log_offsets m ∧ st'.results m = st.results m)) := by
  constructor
  · intro pu ug ek names st
    refine ⟨sweep_offsets_ge pu ug ek names st, ?_⟩
    intro m hm
    obtain ⟨p, o, r, c⟩ := sweep_frame_completed pu ug ek names st m hm
    exact ⟨c, p, o, r⟩
  · intro pu ug env names fuel k st st' h
    exact wait_loop_mono pu ug env names fuel k st st' h

/-- Witness for claim C2 at a concrete mid-session state with job "a"
completed: a sweep leaves its polls, offset and result untouched, and a
zero-fuel completed loop does too. -/
theorem claim_C2_witness :
    ("a" ∈ (sweep (fun _ => none) false ek_err ["a", "b"] st_w).completed ∧
      (sweep (fun _ => none) false ek_err ["a", "b"] st_w).polls "a" = st_w.polls "a" ∧
      (sweep (fun _ => none) false ek_err ["a", "b"] st_w).log_offsets "a"
        = st_w.log_offsets "a" ∧
      (sweep (fun _ => none) false ek_err ["a", "b"] st_w).results "a" = st_w.results "a") ∧
    ("a" ∈ st_w.completed ∧ st_w.polls "a" = st_w.polls "a" ∧
      st_w.log_offsets "a" = st_w.log_offsets "a" ∧ st_w.results "a" = st_w.results "a") := by
  constructor
  · exact (claim_C2_monotone.1 (fun _ => none) false ek_err ["a", "b"] st_w).2 "a" (by decide)
  · exact (claim_C2_monotone.2 (fun _ => none) false (fun _ _ => none) ["a"] 0 0 st_w st_w
      rfl).2 "a" (by decide)

/-- Claim C3: if polling one job raises during a sweep, that job is
skipped for that sweep only: it is not marked completed, its stored
result and offset are unchanged, the sweep itself never propagates the
error (the model is a total function), and every other non-completed job
of the sweep is still polled exactly once. -/
theorem claim_C3_error_skip (pu : String → Option String) (ug : Bool)
    (ek : String → Option PollData) (names : List String) (st : WaitState) (m : String)
    (hnd : names.Nodup) (hm : m ∈ names) (hc : m ∉ st.completed) (herr : ek m = none) :
    (sweep pu ug ek names st).results m = st.results m ∧
    (sweep pu ug ek names st).log_offsets m = st.log_offsets m ∧
    m ∉ (sweep pu ug ek names st).completed ∧
    (sweep pu ug ek names st).polls m = st.polls m + 1 ∧
    (∀ x ∈ names, x ≠ m → x ∉ st.completed →
      (sweep pu ug ek names st).polls x = st.polls x + 1) := by
  have hnd' := hnd
  obtain ⟨l₁, l₂, rfl⟩ := List.append_of_mem hm
  rw [List.nodup_append] at hnd
  obtain ⟨h₁, h₂, hdisj⟩ := hnd
  have hml₂ : m ∉ l₂ := (List.nodup_cons.mp h₂).1
  have hml₁ : m ∉ l₁ := fun hin => hdisj hin (List.mem_cons_self m l₂)
  have hdecomp := sweep_append pu ug ek l₁ l₂ m st
  obtain ⟨p1, o1, r1, c1⟩ := sweep_untouched pu ug ek l₁ st m hml₁
  have hc1 : m ∉ (sweep pu ug ek l₁ st).completed := fun h => hc (c1.mp h)
  have herr' := pj_err pu ug ek (sweep pu ug ek l₁ st) m hc1 herr
  obtain ⟨p2, o2, r2, c2⟩ := sweep_untouched pu ug ek l₂
    ({ sweep pu ug ek l₁ st with
        polls := Function.update (sweep pu ug ek l₁ st).polls m
          ((sweep pu ug ek l₁ st).polls m + 1) }) m hml₂
  refine ⟨?_, ?_, ?_, ?_,
    fun x hx _ hxc => sweep_polls_incr pu ug ek _ st x hnd' hx hxc⟩
  · rw [hdecomp, herr', r2]
    exact r1
  · rw [hdecomp, herr', o2]
    exact o1
  · intro hmem
    rw [hdecomp, herr'] at hmem
    exact hc1 (c2.mp hmem)
  · rw [hdecomp, herr', p2]
    simp [p1]

/-- Witness for claim C3: a two-job sweep from a fresh state where
polling "a" raises; "a" is skipped and retried, "b" is still polled. -/
theorem claim_C3_witness :
    (sweep (fun _ => none) false ek_err ["a", "b"] (init_state false)).results "a"
      = (init_state false).results "a" ∧
    (sweep (fun _ => none) false ek_err ["a", "b"] (init_state false)).log_offsets "a"
      = (init_state false).log_offsets "a" ∧
    "a" ∉ (sweep (fun _ => none) false ek_err ["a", "b"] (init_state false)).completed ∧
    (sweep (fun _ => none) false ek_err ["a", "b"] (init_state false)).polls "a"
      = (init_state false).polls "a" + 1 ∧
    (∀ x ∈ (["a", "b"] : List String), x ≠ "a" → x ∉ (init_state false).completed →
      (sweep (fun _ => none) false ek_err ["a", "b"] (init_state false)).polls x
        = (init_state false).polls x + 1) :=
  claim_C3_error_skip (fun _ => none) false ek_err ["a", "b"] (init_state false) "a"
    (by decide) (by decide) (by simp [init_state]) rfl

/-- Claim C4: for every `(fullLogText, previousLength)`, if the log has
not grown past the cursor the streamer writes nothing and returns the
cursor unchanged (so a repeated call is idempotent and a shrunken log is
treated as no new content, never an error); otherwise it writes exactly
the suffix `fullLogText[previousLength:]` verbatim (wrapped in the group
markers when grouping mode is on) and returns the new total length. -/
theorem claim_C4_stream_delta (nm full : String) (prev : Nat) :
    (full.length ≤ prev → ∀ ug, stream_log_delta nm full prev ug = (prev, [])) ∧
    (prev < full.length →
      stream_log_delta nm full prev false = (full.length, [full.drop prev]) ∧
      stream_log_delta nm full prev true
        = (full.length, ["::group::" ++ nm ++ " (log update)\n", full.drop prev,
            "::endgroup::\n"])) := by
  constructor
  · intro h ug
    exact sld_no_growth nm full prev ug h
  · intro h
    constructor
    · rw [sld_growth nm full prev false h]
      simp
    · rw [sld_growth nm full prev true h]
      simp

/-- Witness for claim C4: a log of length 3 against cursors 5 (no
growth: nothing written) and 1 (growth: the suffix "bc" written). -/
theorem claim_C4_witness :
    stream_log_delta "img" "abc" 5 false = (5, []) ∧
    stream_log_delta "img" "abc" 1 false = (3, ["bc"]) := by
  constructor
  · exact (claim_C4_stream_delta "img" "abc" 5).1 (by decide) false
  · have h := ((claim_C4_stream_delta "img" "abc" 1).2 (by decide)).1
    rw [h]
    decide

/-- Claim C5: `succeeded` holds iff the exit code is present and zero,
`failed` iff it is present and non-zero; the two are mutually exclusive
and both are false when the exit code is absent. -/
theorem claim_C5_predicates (r : BuildResult) :
    (r.succeeded = true ↔ r.exit_code = some 0) ∧
    (r.failed = true ↔ ∃ c, r.exit_code = some c ∧ c ≠ 0) ∧
    (¬ (r.succeeded = true ∧ r.failed = true)) ∧
    (r.exit_code = none → r.succeeded = false ∧ r.failed = false) := by
  rcases hec : r.exit_code with _ | c
  · refine ⟨?_, ?_, ?_, ?_⟩
    · simp [BuildResult.succeeded, hec]
    · simp [BuildResult.failed, hec]
    · simp [BuildResult.succeeded, hec]
    · intro _
      simp [BuildResult.succeeded, BuildResult.failed, hec]
  · refine ⟨?_, ?_, ?_, ?_⟩
    · simp [BuildResult.succeeded, hec]
    · simp [BuildResult.failed, hec]
    · simp [BuildResult.succeeded, BuildResult.failed, hec]
    · intro h
      exact absurd h (by simp)

/-- Witness for claim C5 at a result with no exit code: both predicates
are false. -/
theorem claim_C5_witness : rb_none.succeeded = false ∧ rb_none.failed = false :=
  (claim_C5_predicates rb_none).2.2.2 rfl

/-- Claim C10: the status fetcher consults only the first container of
the group descriptor (plus the group's provisioning state): two
descriptors agreeing on those produce the same extracted triple, the
same log-fetch container name, and the same full `poll_build` result
(including timestamps); containers after the first never influence it. -/
theorem claim_C10_first_container (nm : String) (cg₁ cg₂ : ContainerGroup)
    (lo : String → String)
    (hp : cg₁.provisioning_state = cg₂.provisioning_state)
    (hh : cg₁.containers.head? = cg₂.containers.head?) :
    get_container_state cg₁ = get_container_state cg₂ ∧
    container_name_of nm cg₁ = container_name_of nm cg₂ ∧
    poll_build nm cg₁ lo = poll_build nm cg₂ lo := by
  rcases cg₁ with ⟨cs₁, ps₁⟩
  rcases cg₂ with ⟨cs₂, ps₂⟩
  obtain rfl : ps₁ = ps₂ := hp
  cases cs₁ with
  | nil =>
    cases cs₂ with
    | nil => exact ⟨rfl, rfl, rfl⟩
    | cons c₂ t₂ => exact absurd hh (by simp)
  | cons c₁ t₁ =>
    cases cs₂ with
    | nil => exact absurd hh (by simp)
    | cons c₂ t₂ =>
      obtain rfl : c₁ = c₂ := by simpa using hh
      exact ⟨rfl, rfl, rfl⟩

/-- Witness for claim C10: appending an extra container to a terminated
group changes nothing observed by the fetcher. -/
theorem claim_C10_witness :
    get_container_state cg_done = get_container_state cg_done2 ∧
    container_name_of "img" cg_done = container_name_of "img" cg_done2 ∧
    poll_build "img" cg_done logs_w = poll_build "img" cg_done2 logs_w :=
  claim_C10_first_container "img" cg_done cg_done2 logs_w rfl rfl

/-- Claim C9: whenever `wait_for_builds` returns, each job's final stored
result is exactly the `poll_build` output of a single poll that observed
the terminal sentinel — so `logs_tail` is captured once, from the full
log fetched at that finalizing poll, and polls before (or after) the
finalizing one do not determine it. -/
theorem claim_C9_tail_at_finalize (names : List String) (pu : String → Option String)
    (ig : Bool) (env : Nat → String → Option PollData) (fuel : Nat)
    (res : Option (List BuildResult)) (stF : WaitState)
    (h : wait_for_builds fuel names pu ig env = some (res, stF)) :
    ∀ n ∈ names, ∃ k pd, env k n = some pd ∧
      (poll_build n pd.1 pd.2).1.state = TERMINATED ∧
      stF.results n = some { (poll_build n pd.1 pd.2).1 with portal_url := (pu n).getD "" } ∧
      ∀ r, stF.results n = some r →
        r.logs_tail = tail_lines (pd.2 (container_name_of n pd.1)) LOG_TAIL_LINES := by
  rcases hl : wait_loop pu (ig && decide (1 < names.length)) env names fuel 0 (init_state ig)
    with _ | st'
  · have hnone : wait_for_builds fuel names pu ig env = none := by
      unfold wait_for_builds
      simp only [hl]
    rw [hnone] at h
    exact Option.noConfusion h
  · have hw := wfb_unfold pu ig env names fuel st' hl
    rw [hw] at h
    have hp := Option.some.inj h
    rw [Prod.mk.injEq] at hp
    have hres : stF.results = st'.results := by
      rw [← hp.2]
      cases ig <;> rfl
    obtain ⟨hnamed, hall, hprov⟩ :=
      wait_loop_init_facts pu (ig && decide (1 < names.length)) env names ig fuel st' hl
    intro n hn
    obtain ⟨k, pd, henv, hterm, hstore⟩ := hprov n (hall n hn)
    refine ⟨k, pd, henv, hterm, ?_, ?_⟩
    · rw [hres, hstore]
    · intro r hr
      rw [hres, hstore] at hr
      obtain rfl := Option.some.inj hr
      exact poll_build_logs_tail n pd.1 pd.2

/-- Witness for claim C9 on a concrete two-job run. -/
theorem claim_C9_witness :
    ∃ res stF, wait_for_builds 2 ["a", "b"] (fun _ => none) false env_w = some (res, stF) ∧
      ∀ n ∈ (["a", "b"] : List String), ∃ k pd, env_w k n = some pd ∧
        (poll_build n pd.1 pd.2).1.state = TERMINATED ∧
        stF.results n = some { (poll_build n pd.1 pd.2).1 with
          portal_url := (((fun _ => none) : String → Option String) n).getD "" } ∧
        ∀ r, stF.results n = some r →
          r.logs_tail = tail_lines (pd.2 (container_name_of n pd.1)) LOG_TAIL_LINES := by
  have hsome : (wait_for_builds 2 ["a", "b"] (fun _ => none) false env_w).isSome = true := by
    decide
  obtain ⟨v, hv⟩ := Option.isSome_iff_exists.mp hsome
  rcases v with ⟨res, stF⟩
  exact ⟨res, stF, hv,
    claim_C9_tail_at_finalize ["a", "b"] (fun _ => none) false env_w 2 res stF hv⟩

/-- Claim C6: `report_results` returns exactly the failed results in list
order; in CI mode the key/value sink receives `build_result` =
failure/success/unknown (any failed / else any succeeded / else), the
`failed_images` comma-join iff some result failed, and the
`succeeded_images` comma-join iff some result succeeded; outside CI mode
nothing is written. -/
theorem claim_C6_report (ig : Bool) (results : List BuildResult) :
    (report_results ig results).1 = results.filter (fun r => r.failed) ∧
    (ig = true →
      (report_results ig results).2.outs.lookup "build_result"
        = some (if results.filter (fun r => r.failed) ≠ [] then "failure"
            else if results.filter (fun r => r.succeeded) ≠ [] then "success"
            else "unknown") ∧
      (report_results ig results).2.outs.lookup "failed_images"
        = (if results.filter (fun r => r.failed) = [] then none
           else some (String.intercalate ","
             ((results.filter (fun r => r.failed)).map (fun r => r.image_name)))) ∧
      (report_results ig results).2.outs.lookup "succeeded_images"
        = (if results.filter (fun r => r.succeeded) = [] then none
           else some (String.intercalate ","
             ((results.filter (fun r => r.succeeded)).map (fun r => r.image_name))))) ∧
    (ig = false → (report_results ig results).2.outs = []) := by
  cases ig
  · refine ⟨?_, ?_, ?_⟩
    · simp [report_results]
    · intro h
      exact absurd h (by simp)
    · intro _
      simp [report_results]
  · refine ⟨?_, ?_, ?_⟩
    · simp [report_results]
    · intro _
      by_cases hf : results.filter (fun r => r.failed) = [] <;>
        by_cases hs : results.filter (fun r => r.succeeded) = [] <;>
          simp [report_results, hf, hs, List.lookup]
    · intro h
      exact absurd h (by simp)

/-- Witness for claim C6 on one success and one failure. -/
theorem claim_C6_witness :
    (report_results true [rb_ok, rb_bad]).1 = [rb_bad] ∧
    (report_results true [rb_ok, rb_bad]).2.outs.lookup "build_result" = some "failure" ∧
    (report_results true [rb_ok, rb_bad]).2.outs.lookup "failed_images" = some "img2" ∧
    (report_results true [rb_ok, rb_bad]).2.outs.lookup "succeeded_images" = some "img1" := by
  have h := claim_C6_report true [rb_ok, rb_bad]
  have h2 := h.2.1 rfl
  refine ⟨?_, ?_, ?_, ?_⟩
  · rw [h.1]
    decide
  · rw [h2.1]
    decide
  · rw [h2.2.1]
    decide
  · rw [h2.2.2]
    decide

/-! String lemmas for the annotation claims. -/

theorem str_data_append (a b : String) : (a ++ b).data = a.data ++ b.data := rfl

theorem has_newline_append (a b : String) :
    has_newline (a ++ b) = (has_newline a || has_newline b) := by
  unfold has_newline
  rw [str_data_append]
  by_cases ha : '\n' ∈ a.data <;> by_cases hb : '\n' ∈ b.data <;>
    simp [ha, hb, List.mem_append]

theorem escape_no_newline (s : String) : has_newline (escape_newlines s) = false := by
  unfold has_newline escape_newlines
  simp only [decide_eq_false_iff_not]
  show '\n' ∉ s.data.foldr (fun c acc => if c = '\n' then '%' :: '0' :: 'A' :: acc else c :: acc) []
  generalize s.data = l
  induction l with
  | nil => simp
  | cons c cs ih =>
    rw [List.foldr_cons]
    by_cases hc : c = '\n'
    · subst hc
      simp [ih]
    · simp only [if_neg hc, List.mem_cons]
      rintro (h | h)
      · exact hc h.symm
      · exact ih h

theorem ann_line_no_newline (level msg : String) (t : Option String)
    (hl : has_newline level = false)
    (ht : ∀ s, t = some s → has_newline s = false) :
    has_newline (github_ann_line level msg t) = false := by
  have h0 : has_newline "::" = false := by decide
  have h7 : has_newline " title=" = false := by decide
  have hemp : has_newline "" = false := by decide
  unfold github_ann_line
  cases t with
  | none =>
    simp only [has_newline_append]
    rw [h0, hl, hemp, escape_no_newline]
    rfl
  | some t' =>
    by_cases ht' : t' = ""
    · simp only [if_pos ht', has_newline_append]
      rw [h0, hl, hemp, escape_no_newline]
      rfl
    · simp only [if_neg ht', has_newline_append]
      rw [h0, hl, h7, ht t' rfl, escape_no_newline]
      rfl

/-- Claim C7 (amended): in CI mode the reporter emits exactly one
error-level annotation line per failed result and one notice-level line
per succeeded result, with every newline of the message escaped as
`%0A`; the emitted lines are single physical lines provided the image
names (which are interpolated unescaped into the annotation titles)
contain no newline. -/
theorem claim_C7_annotations (results : List BuildResult)
    (htitle : ∀ r ∈ results, has_newline r.image_name = false) :
    (report_results true results).2.ann_lines
      = (results.filter (fun r => r.failed)).map error_ann_line
        ++ (results.filter (fun r => r.succeeded)).map notice_ann_line ∧
    (∀ a ∈ (report_results true results).2.ann_lines, has_newline a = false) := by
  have hbf : has_newline " build failed" = false := by decide
  have hbs : has_newline " build succeeded" = false := by decide
  constructor
  · simp [report_results]
  · intro a ha
    simp only [report_results, if_true] at ha
    rcases List.mem_append.mp ha with h | h
    · obtain ⟨r, hr, rfl⟩ := List.mem_map.mp h
      have hrres : r ∈ results := (List.mem_filter.mp hr).1
      unfold error_ann_line
      apply ann_line_no_newline
      · decide
      · intro s hs
        obtain rfl := Option.some.inj hs
        rw [has_newline_append, htitle r hrres, hbf]
        rfl
    · obtain ⟨r, hr, rfl⟩ := List.mem_map.mp h
      have hrres : r ∈ results := (List.mem_filter.mp hr).1
      unfold notice_ann_line
      apply ann_line_no_newline
      · decide
      · intro s hs
        obtain rfl := Option.some.inj hs
        rw [has_newline_append, htitle r hrres, hbs]
        rfl

/-- Counterexample to claim C7 as stated: for a failed result whose
image name contains a newline, the emitted annotation is not a single
physical line (the title is interpolated without escaping). -/
theorem claim_C7_counterexample :
    (report_results true [rb_nl]).2.ann_lines.any has_newline = true := by decide

/-- Witness for the amended claim C7 on one success and one failure with
newline-free image names. -/
theorem claim_C7_witness :
    (report_results true [rb_ok, rb_bad]).2.ann_lines
      = ([rb_ok, rb_bad].filter (fun r => r.failed)).map error_ann_line
        ++ ([rb_ok, rb_bad].filter (fun r => r.succeeded)).map notice_ann_line ∧
    (∀ a ∈ (report_results true [rb_ok, rb_bad]).2.ann_lines, has_newline a = false) :=
  claim_C7_annotations [rb_ok, rb_bad] (by decide)

/-! Lemmas for the tail helper `tail_lines`. -/

theorem splitlines_go_no_break :
    ∀ (cs acc : List Char) (f : Bool), (∀ c ∈ acc, is_line_break c = false) →
    ∀ x ∈ splitlines_go cs acc f, ∀ c ∈ x.data, is_line_break c = false := by
  intro cs acc f
  induction cs, acc, f using splitlines_go.induct with
  | case1 acc f hempty =>
    intro _ x hx
    simp only [splitlines_go, if_pos hempty] at hx
    exact absurd hx (List.not_mem_nil x)
  | case2 acc f hempty =>
    intro hacc x hx
    simp only [splitlines_go, if_neg hempty] at hx
    rw [List.mem_singleton] at hx
    subst hx
    intro c hc
    exact hacc c (by simpa using hc)
  | case3 c rest acc after_cr hskip ih =>
    intro hacc x hx
    simp only [splitlines_go, if_pos hskip] at hx
    exact ih hacc x hx
  | case4 c rest acc after_cr hskip hbr ih =>
    intro hacc x hx
    simp only [splitlines_go, if_neg hskip, if_pos hbr] at hx
    rcases List.mem_cons.mp hx with rfl | hx'
    · intro ch hch
      exact hacc ch (by simpa using hch)
    · exact ih (by simp) x hx'
  | case5 c rest acc after_cr hskip hbr ih =>
    intro hacc x hx
    simp only [splitlines_go, if_neg hskip, if_neg hbr] at hx
    refine ih ?_ x hx
    intro ch hch
    rcases List.mem_cons.mp hch with rfl | hch'
    · exact Bool.not_eq_true _ ▸ (by simpa using hbr)
    · exact hacc ch hch'

theorem join_nl_count (L : List String) (hL : L ≠ []) (h : ∀ x ∈ L, '\n' ∉ x.data) :
    (join_nl L).data.count '\n' = L.length - 1 := by
  induction L with
  | nil => exact absurd rfl hL
  | cons x xs ih =>
    cases xs with
    | nil =>
      show x.data.count '\n' = 0
      exact List.count_eq_zero.mpr (h x (List.mem_singleton.mpr rfl))
    | cons y ys =>
      have hx : '\n' ∉ x.data := h x (List.mem_cons_self x (y :: ys))
      have hrest : ∀ z ∈ y :: ys, '\n' ∉ z.data :=
        fun z hz => h z (List.mem_cons_of_mem x hz)
      have hj : join_nl (x :: y :: ys) = x ++ "\n" ++ join_nl (y :: ys) := rfl
      rw [hj, str_data_append, str_data_append, List.count_append, List.count_append]
      rw [List.count_eq_zero.mpr hx, ih (by simp) hrest]
      simp
      omega

theorem takeWhile_append_head_false {α : Type} (p : α → Bool) (u : List α) (c : α)
    (v : List α) (hc : p c = false) :
    (u ++ c :: v).takeWhile p = u.takeWhile p := by
  induction u with
  | nil => simp [List.takeWhile_cons, hc]
  | cons a u ih =>
    by_cases ha : p a <;> simp [List.takeWhile_cons, ha, ih]

theorem last_line_of_no_break (s : String) (h : ∀ c ∈ s.data, is_line_break c = false) :
    last_line s = s := by
  unfold last_line
  have ht : s.data.reverse.takeWhile (fun c => !(is_line_break c)) = s.data.reverse := by
    rw [List.takeWhile_eq_self_iff]
    intro c hc
    rw [h c (List.mem_reverse.mp hc)]
    rfl
  rw [ht, List.reverse_reverse]

theorem last_line_append_nl (a b : String) : last_line (a ++ "\n" ++ b) = last_line b := by
  unfold last_line
  have hdata : (a ++ "\n" ++ b).data = (a.data ++ ['\n']) ++ b.data := by
    rw [str_data_append, str_data_append]
  rw [hdata, List.reverse_append, List.reverse_append]
  have hrev : (['\n'].reverse ++ a.data.reverse) = '\n' :: a.data.reverse := rfl
  rw [hrev]
  rw [takeWhile_append_head_false _ _ '\n' _ (by decide)]

theorem join_nl_last (L : List String) (hL : L ≠ [])
    (h : ∀ x ∈ L, ∀ c ∈ x.data, is_line_break c = false) :
    last_line (join_nl L) = L.getLast hL := by
  induction L with
  | nil => exact absurd rfl hL
  | cons x xs ih =>
    cases xs with
    | nil =>
      show last_line x = x
      exact last_line_of_no_break x (h x (List.mem_singleton.mpr rfl))
    | cons y ys =>
      have hj : join_nl (x :: y :: ys) = x ++ "\n" ++ join_nl (y :: ys) := rfl
      have hg : (x :: y :: ys).getLast hL = (y :: ys).getLast (by simp) :=
        List.getLast_cons (by simp)
      rw [hj, last_line_append_nl,
        ih (by simp) (fun z hz => h z (List.mem_cons_of_mem x hz)), hg]

theorem line_count_join_le (L : List String) (h : ∀ x ∈ L, '\n' ∉ x.data) :
    line_count (join_nl L) ≤ L.length := by
  unfold line_count
  split
  · exact Nat.zero_le _
  · next hne =>
    have hL : L ≠ [] := by
      rintro rfl
      exact hne rfl
    rw [join_nl_count L hL h]
    have := List.length_pos.mpr hL
    omega

theorem last_slice_subset (L : List String) (k : Nat) :
    ∀ x ∈ last_slice L k, x ∈ L := by
  unfold last_slice
  split
  · exact fun x h => h
  · exact fun x h => List.mem_of_mem_drop h

theorem last_slice_length_le (L : List String) (k : Nat) (hk : 1 ≤ k) :
    (last_slice L k).length ≤ k := by
  unfold last_slice
  split
  · omega
  · rw [List.length_drop]
    omega

theorem last_slice_ne_nil (L : List String) (k : Nat) (hk : 1 ≤ k) (hL : L ≠ []) :
    last_slice L k ≠ [] := by
  unfold last_slice
  split
  · exact hL
  · have hlen := List.length_pos.mpr hL
    have : 0 < (L.drop (L.length - k)).length := by
      rw [List.length_drop]
      omega
    exact List.length_pos.mp this

theorem getLast?_drop_eq {α : Type} (L : List α) (m : Nat) (h : m < L.length) :
    (L.drop m).getLast? = L.getLast? := by
  induction L generalizing m with
  | nil => simp at h
  | cons a t ih =>
    cases m with
    | zero => rfl
    | succ m' =>
      have h' : m' < t.length := by simpa using h
      rw [List.drop_succ_cons, ih m' h']
      have ht : t ≠ [] := by
        intro hh
        subst hh
        simp at h'
      cases t with
      | nil => exact absurd rfl ht
      | cons b l => rw [List.getLast?_cons_cons]

theorem last_slice_getLast (L : List String) (k : Nat) (hk : 1 ≤ k) (hL : L ≠ [])
    (h' : last_slice L k ≠ []) : (last_slice L k).getLast h' = L.getLast hL := by
  have hq : (last_slice L k).getLast? = L.getLast? := by
    unfold last_slice
    split
    · rfl
    · apply getLast?_drop_eq
      have := List.length_pos.mpr hL
      omega
  have h1 := List.getLast?_eq_getLast (last_slice L k) h'
  have h2 := List.getLast?_eq_getLast L hL
  rw [h1, h2] at hq
  exact Option.some.inj hq

/-- Claim C8 (amended): for `k ≥ 1` the tail helper returns at most `k`
lines, and its last returned line equals the last line of the
whitespace-stripped input whenever that has at least one line; for empty
input it returns the empty string.  (For `k = 0` the Python slice
`lines[-0:]` yields all lines, and trailing whitespace of the input is
stripped before the last line is taken.) -/
theorem claim_C8_tail_lines (content : String) (k : Nat) :
    (1 ≤ k → line_count (tail_lines content k) ≤ k) ∧
    (1 ≤ k → ∀ hne : py_splitlines (py_strip content) ≠ [],
      last_line (tail_lines content k) = (py_splitlines (py_strip content)).getLast hne) ∧
    (content = "" → tail_lines content k = "") := by
  have hnb : ∀ x ∈ py_splitlines (py_strip content), ∀ c ∈ x.data, is_line_break c = false :=
    splitlines_go_no_break _ [] false (by simp)
  refine ⟨?_, ?_, ?_⟩
  · intro hk
    unfold tail_lines
    have h1 : ∀ x ∈ last_slice (py_splitlines (py_strip content)) k, '\n' ∉ x.data := by
      intro x hx hmem
      have := hnb x (last_slice_subset _ _ x hx) '\n' hmem
      exact absurd this (by decide)
    calc line_count (join_nl (last_slice (py_splitlines (py_strip content)) k))
        ≤ (last_slice (py_splitlines (py_strip content)) k).length :=
          line_count_join_le _ h1
    _ ≤ k := last_slice_length_le _ k hk
  · intro hk hne
    unfold tail_lines
    have hne' : last_slice (py_splitlines (py_strip content)) k ≠ [] :=
      last_slice_ne_nil _ k hk hne
    rw [join_nl_last _ hne' (fun x hx => hnb x (last_slice_subset _ _ x hx))]
    exact last_slice_getLast _ k hk hne hne'
  · rintro rfl
    show join_nl (last_slice (py_splitlines (py_strip "")) k) = ""
    rw [show py_splitlines (py_strip "") = [] from rfl]
    unfold last_slice
    split
    · rfl
    · simp [join_nl]

/-- Counterexample to claim C8 as stated: with `k = 0` the helper
returns all lines rather than at most 0 of them (Python `lines[-0:]`),
and for input `"b "` with `k = 1` the returned last line `"b"` differs
from the input's literal last line `"b "` (trailing whitespace is
stripped first). -/
theorem claim_C8_counterexample :
    line_count (tail_lines "a\nb" 0) = 2 ∧ tail_lines "b " 1 = "b" ∧
    last_line "b " = "b " := by decide

/-- Witness for the amended claim C8 on a three-line input with k = 2,
plus the empty-input case. -/
theorem claim_C8_witness :
    line_count (tail_lines "a\nb\nc" 2) ≤ 2 ∧
    last_line (tail_lines "a\nb\nc" 2)
      = (py_splitlines (py_strip "a\nb\nc")).getLast (by decide) ∧
    tail_lines "" 2 = "" := by
  have h := claim_C8_tail_lines "a\nb\nc" 2
  exact ⟨h.1 (by decide), h.2.1 (by decide) (by decide), (claim_C8_tail_lines "" 2).2.2 rfl⟩
